import Mathlib

/-
  Verification of the prolog distributed commit-log repository.

  Shallow embedding of the Go sources:
  * internal/server/log.go        — in-memory record log (ServerLog)
  * internal/log  store.go        — length-prefixed byte store (Store)
  * internal/log/index.go         — memory-mapped fixed-width index (Index)
  * internal/log  distributed.go  — DistributedLog Append / Join, fsm
  * internal/server  server.go    — grpcServer.ConsumeStream
  * internal/log/replicator.go    — Replicator Join / Close

  Machine integers are modelled as Nat / Int with explicit wrap-around
  (% 2^32, % 2^64) at the places where Go performs integer conversions.
  Bytes are Nat values (each < 256 for encodings produced here).
-/

namespace Prolog

/-! ## Byte-encoding helpers (encoding/binary, big endian) -/

/-- Width in bytes of the length header a store frame carries (Go: lenWidth). -/
def lenWidth : Nat := 8

/-- Big-endian 8-byte encoding of a 64-bit value (Go: enc.PutUint64).
    Bytes depend only on the argument modulo 2^64. -/
def be64 (n : Nat) : List Nat :=
  [n / 72057594037927936 % 256, n / 281474976710656 % 256, n / 1099511627776 % 256,
   n / 4294967296 % 256, n / 16777216 % 256, n / 65536 % 256, n / 256 % 256, n % 256]

/-- Big-endian 4-byte encoding of a 32-bit value (Go: enc.PutUint32). -/
def be32 (n : Nat) : List Nat :=
  [n / 16777216 % 256, n / 65536 % 256, n / 256 % 256, n % 256]

/-- Byte of a buffer at an offset; positions past the end read as 0
    (all uses below are guarded by bounds checks mirroring the Go code). -/
def byteAt (l : List Nat) (i : Nat) : Nat := l.getD i 0

/-- Big-endian 32-bit decode at a byte position (Go: enc.Uint32). -/
def decodeU32 (l : List Nat) (p : Nat) : Nat :=
  byteAt l p * 16777216 + byteAt l (p + 1) * 65536 + byteAt l (p + 2) * 256 + byteAt l (p + 3)

/-- Big-endian 64-bit decode at a byte position (Go: enc.Uint64). -/
def decodeU64 (l : List Nat) (p : Nat) : Nat :=
  byteAt l p * 72057594037927936 + byteAt l (p + 1) * 281474976710656 +
    byteAt l (p + 2) * 1099511627776 + byteAt l (p + 3) * 4294967296 +
    byteAt l (p + 4) * 16777216 + byteAt l (p + 5) * 65536 +
    byteAt l (p + 6) * 256 + byteAt l (p + 7)

/-- Go conversion int32(x): keep the low 32 bits, reinterpreted as signed. -/
def toInt32 (x : Int) : Int :=
  let m := x % 4294967296
  if m < 2147483648 then m else m - 4294967296

/-- Go conversion uint32(x): low 32 bits of x. -/
def toUint32 (x : Int) : Nat := (x % 4294967296).toNat

/-- Go conversion uint64(x): low 64 bits of x (sign extension then reinterpret). -/
def toUint64 (x : Int) : Nat := (x % 18446744073709551616).toNat

/-! ## internal/server/log.go : the in-memory Log -/

/-- Record of internal/server/log.go: value bytes plus the assigned offset. -/
structure SRecord where
  value : List Nat
  offset : Nat
deriving Repr, DecidableEq

/-- Log of internal/server/log.go: a slice of records guarded by a mutex
    (the mutex disappears in this sequential embedding). -/
structure ServerLog where
  records : List SRecord
deriving Repr, DecidableEq

/-- Log.Append: sets record.Offset to len(records), appends, returns the offset. -/
def ServerLog.Append (l : ServerLog) (r : SRecord) : Nat × ServerLog :=
  let off := l.records.length
  (off, ⟨l.records ++ [⟨r.value, off⟩]⟩)

/-- Log.Read: offsets at or past len(records) yield ErrOffsetNotFound. -/
def ServerLog.Read (l : ServerLog) (off : Nat) : Except String SRecord :=
  match l.records[off]? with
  | some r => Except.ok r
  | none => Except.error "offset not found"

/-- Sequence of Append calls, collecting the returned offsets. -/
def ServerLog.appendAll (l : ServerLog) : List SRecord → List Nat × ServerLog
  | [] => ([], l)
  | r :: rs =>
    let first := ServerLog.Append l r
    let rest := ServerLog.appendAll first.2 rs
    (first.1 :: rest.1, rest.2)

/-! ## store.go : the length-prefixed byte store -/

/-- The store struct: size field, the file contents and the bufio buffer.
    newStore initializes size from the file's size. -/
structure Store where
  size : Nat
  fileData : List Nat
  buffered : List Nat
deriving Repr, DecidableEq

/-- Go newStore: size is taken from the on-disk file size, buffer empty. -/
def newStore (fileData : List Nat) : Store :=
  ⟨fileData.length, fileData, []⟩

/-- Fault injection for store.Append: whether the length-header write
    (binary.Write) or the payload write (buf.Write) fails, and which bytes a
    failed buffered write nevertheless left behind. -/
structure AppendFault where
  headerErr : Bool
  headerJunk : List Nat
  payloadErr : Bool
  payloadJunk : List Nat
deriving Repr, DecidableEq

/-- The fault-free execution of store.Append. -/
def noFault : AppendFault := ⟨false, [], false, []⟩

/-- Result of store.Append: bytes written, position, and the new store state,
    or an error together with the (partially mutated) store state. -/
inductive StoreAppendResult
  | ok (n pos : Nat) (s : Store)
  | err (s : Store)
deriving Repr, DecidableEq

/-- store.Append: pos := size; write 8-byte big-endian length then the payload
    through the buffered writer; only after both writes succeed is size
    incremented, by lenWidth + len(p); returns (lenWidth + len(p), pos). -/
def Store.Append (s : Store) (p : List Nat) (f : AppendFault) : StoreAppendResult :=
  if f.headerErr then
    .err { s with buffered := s.buffered ++ f.headerJunk }
  else if f.payloadErr then
    .err { s with buffered := s.buffered ++ be64 p.length ++ f.payloadJunk }
  else
    .ok (lenWidth + p.length) s.size
      { s with buffered := s.buffered ++ be64 p.length ++ p,
               size := s.size + (lenWidth + p.length) }

/-- A sequence of fault-free Append calls (used for the size invariant). -/
def Store.appendMany (s : Store) : List (List Nat) → Store
  | [] => s
  | p :: ps =>
    match Store.Append s p noFault with
    | .ok _ _ s1 => Store.appendMany s1 ps
    | .err s1 => Store.appendMany s1 ps

/-! ## index.go : the memory-mapped fixed-width index -/

/-- Width of the relative-offset column (Go: offWidth). -/
def offWidth : Nat := 4

/-- Width of one index entry in bytes (Go: entWidth = offWidth + posWidth). -/
def entWidth : Nat := 12

/-- Bound for 64-bit wrap-around arithmetic. -/
def pow64 : Nat := 18446744073709551616

/-- The index struct: size (bytes of valid entries) and the mmapped bytes. -/
structure Index where
  size : Nat
  mmap : List Nat
deriving Repr, DecidableEq

/-- Outcome of index.Read: decoded entry, io.EOF, or a Go slice-bounds panic. -/
inductive IndexReadResult
  | ok (off : Int) (pos : Nat)
  | eof
  | panicked
deriving Repr, DecidableEq

/-- index.Read, with Go's integer conversions made explicit: `out = int32(in)`
    truncates to 32 bits; for in = -1 the last-entry offset `(size/entWidth)-1`
    is computed in uint64 (wrapping below zero) before the int32 conversion;
    the byte position `uint64(out) * entWidth` and the bound `pos + entWidth`
    wrap at 2^64; decoding a position outside the mapping panics. -/
def Index.Read (i : Index) (inp : Int) : IndexReadResult :=
  if i.size = 0 then .ok 0 0
  else
    let out : Int :=
      if inp = -1 then toInt32 (((i.size / entWidth + (pow64 - 1)) % pow64 : Nat) : Int)
      else toInt32 inp
    let posU : Nat := toUint64 out * entWidth % pow64
    if i.size < (posU + entWidth) % pow64 then .eof
    else if posU + entWidth ≤ i.mmap.length then
      .ok (toInt32 ((decodeU32 i.mmap posU : Nat) : Int)) (decodeU64 i.mmap (posU + offWidth))
    else .panicked

/-- Reading of index.Read exactly as claim C7 words it: the relative offset is
    `in` itself (or (size/entWidth)-1 when in = -1), the byte position is
    relOffset * entWidth in exact integer arithmetic, and end-of-data is
    returned whenever that position plus one entry width exceeds size. -/
def Index.ReadClaimed (i : Index) (inp : Int) : IndexReadResult :=
  if i.size = 0 then .ok 0 0
  else
    let rel : Int := if inp = -1 then ((i.size / entWidth : Nat) : Int) - 1 else inp
    let pos : Int := rel * (entWidth : Int)
    if (i.size : Int) < pos + (entWidth : Int) then .eof
    else if pos.toNat + entWidth ≤ i.mmap.length then
      .ok (toInt32 ((decodeU32 i.mmap pos.toNat : Nat) : Int))
        (decodeU64 i.mmap (pos.toNat + offWidth))
    else .panicked

/-- Outcome of index.Write: io.EOF or the updated index. -/
inductive IndexWriteResult
  | eofErr
  | okIdx (i : Index)
deriving Repr, DecidableEq

/-- index.Write: EOF when the mapping cannot hold one more entry, otherwise
    the 12-byte big-endian entry is written at byte position size and size
    advances by one entry width. -/
def Index.Write (i : Index) (off : Int) (pos : Nat) : IndexWriteResult :=
  if i.mmap.length < i.size + entWidth then .eofErr
  else .okIdx ⟨i.size + entWidth,
    i.mmap.take i.size ++ be32 (toUint32 off) ++ be64 pos ++ i.mmap.drop (i.size + entWidth)⟩

/-- Length of a 4-byte big-endian encoding. -/
theorem be32_length (n : Nat) : (be32 n).length = 4 := rfl

/-- Length of an 8-byte big-endian encoding. -/
theorem be64_length (n : Nat) : (be64 n).length = 8 := rfl

/-- Int32 conversion is the identity below 2^31. -/
theorem toInt32_coe (n : Nat) (h : n < 2147483648) : toInt32 ((n : Nat) : Int) = ((n : Nat) : Int) := by
  simp only [toInt32]
  split <;> omega

/-- Int32 conversion is the identity on [0, 2^31). -/
theorem toInt32_eq_self (x : Int) (h0 : 0 ≤ x) (h : x < 2147483648) : toInt32 x = x := by
  simp only [toInt32]
  split <;> omega

/-- Uint64 conversion is the identity on naturals below 2^64. -/
theorem toUint64_coe (n : Nat) (h : n < 18446744073709551616) :
    toUint64 ((n : Nat) : Int) = n := by
  simp only [toUint64]
  omega

/-! ## Theorems for claims C3-C6 -/

/-- C3: appending a record r to a freshly created log and reading back the
    returned offset yields a record with exactly r's value bytes and with
    offset equal to the returned offset (which is 0 on a fresh log). -/
theorem serverLog_append_read_roundtrip (r : SRecord) :
    (ServerLog.Append ⟨[]⟩ r).1 = 0 ∧
    ServerLog.Read (ServerLog.Append ⟨[]⟩ r).2 (ServerLog.Append ⟨[]⟩ r).1
      = Except.ok ⟨r.value, (ServerLog.Append ⟨[]⟩ r).1⟩ :=
  ⟨rfl, rfl⟩

/-- Offsets returned by a run of Append calls starting from any log state. -/
theorem serverLog_appendAll_offsets (rs : List SRecord) :
    ∀ l : ServerLog, (ServerLog.appendAll l rs).1
      = List.range' l.records.length rs.length := by
  induction rs with
  | nil => intro l; rfl
  | cons r rs ih =>
    intro l
    simp only [ServerLog.appendAll, ServerLog.Append]
    rw [ih]
    simp only [List.length_append, List.length_cons, List.length_nil, Nat.zero_add]
    rw [List.range'_succ]

/-- C4: on a fresh log, the i-th successful Append returns offset i: the list
    of returned offsets equals range(n), hence is strictly increasing with no
    gaps. -/
theorem serverLog_append_offsets_monotone (rs : List SRecord) :
    (ServerLog.appendAll ⟨[]⟩ rs).1 = List.range rs.length ∧
    List.Pairwise (· < ·) (ServerLog.appendAll ⟨[]⟩ rs).1 := by
  have h : (ServerLog.appendAll ⟨[]⟩ rs).1 = List.range rs.length := by
    rw [serverLog_appendAll_offsets rs ⟨[]⟩, List.range_eq_range']
    rfl
  exact ⟨h, h ▸ List.pairwise_lt_range _⟩

/-- C5: a successful store.Append(p) returns bytesWritten = 8 + len(p) and
    position = the size before the call, and bumps size by exactly 8 + len(p);
    consequently, starting from a store over an empty file, size always equals
    the sum of the framed lengths of all records ever appended. -/
theorem store_append_size_spec (s : Store) (p : List Nat) (ps : List (List Nat)) :
    Store.Append s p noFault
      = .ok (lenWidth + p.length) s.size
          { s with buffered := s.buffered ++ be64 p.length ++ p,
                   size := s.size + (lenWidth + p.length) } ∧
    (Store.appendMany (newStore []) ps).size
      = (ps.map fun q => lenWidth + q.length).sum := by
  have hstep : ∀ (t : Store) (q : List Nat) (qs : List (List Nat)),
      Store.appendMany t (q :: qs)
        = Store.appendMany
            { t with buffered := t.buffered ++ be64 q.length ++ q,
                     size := t.size + (lenWidth + q.length) } qs :=
    fun _ _ _ => rfl
  have hmany : ∀ qs : List (List Nat), ∀ t : Store,
      (Store.appendMany t qs).size = t.size + (qs.map fun q => lenWidth + q.length).sum := by
    intro qs
    induction qs with
    | nil => intro t; simp [Store.appendMany]
    | cons q qs ih =>
      intro t
      rw [hstep, ih]
      simp only [List.map_cons, List.sum_cons]
      omega
  refine ⟨rfl, ?_⟩
  rw [hmany ps (newStore [])]
  simp [newStore]

/-- C6: if store.Append fails partway (header write or payload write errors),
    the store's size field is unchanged: size is incremented only after both
    writes succeed. -/
theorem store_append_fail_size_unchanged (s : Store) (p : List Nat) (f : AppendFault)
    (h : f.headerErr = true ∨ f.payloadErr = true) :
    ∃ s1, Store.Append s p f = .err s1 ∧ s1.size = s.size := by
  by_cases hh : f.headerErr = true
  · refine ⟨{ s with buffered := s.buffered ++ f.headerJunk }, ?_, rfl⟩
    simp [Store.Append, hh]
  · have hp : f.payloadErr = true := by tauto
    refine ⟨{ s with buffered := s.buffered ++ be64 p.length ++ f.payloadJunk }, ?_, rfl⟩
    simp [Store.Append, hh, hp]

/-- Witness for C6: a concrete failing Append leaves size = 2 unchanged. -/
theorem store_append_fail_size_unchanged_witness :
    ∃ s1, Store.Append (newStore [0, 1]) [5, 6] ⟨true, [9], false, []⟩ = .err s1 ∧
      s1.size = (newStore [0, 1]).size :=
  store_append_fail_size_unchanged (newStore [0, 1]) [5, 6] ⟨true, [9], false, []⟩ (Or.inl rfl)

/-- Concrete index with one entry (relOffset 7, storePos 42) and a 24-byte
    mapping, used to exercise index.Read at an out-of-int32-range input. -/
def idxC7 : Index := ⟨12, be32 7 ++ be64 42 ++ be64 0 ++ be32 0⟩

/-- C7 counterexample: at in = 2^32 on a one-entry index, the claim as stated
    demands end-of-data (the byte position 2^32 * 12 + 12 exceeds size = 12),
    but the code truncates in to int32, yielding 0, and decodes entry 0. -/
theorem index_read_truncation_counterexample :
    Index.ReadClaimed idxC7 4294967296 = .eof ∧
    Index.Read idxC7 4294967296 = .ok 7 42 := by
  constructor
  · decide
  · decide

/-- C7 (amended): for inputs in the signed-32-bit range (in = -1 or
    0 ≤ in < 2^31), on an index whose size is a whole number of entries, at
    most 2^31 of them, index.Read behaves exactly as the claim describes;
    outside that range the relative offset is first truncated to 32 bits. -/
theorem index_read_amended (i : Index) (inp : Int)
    (hin : inp = -1 ∨ (0 ≤ inp ∧ inp < 2147483648))
    (hmul : i.size % entWidth = 0)
    (hcap : i.size ≤ entWidth * 2147483648) :
    Index.Read i inp = Index.ReadClaimed i inp := by
  by_cases hz : i.size = 0
  · simp [Index.Read, Index.ReadClaimed, hz]
  · simp only [entWidth] at hmul hcap
    have hsz : 12 ≤ i.size := by omega
    obtain ⟨r, hr31, hr_out, hr_claim⟩ :
        ∃ r : Nat, r < 2147483648 ∧
          (if inp = -1 then toInt32 (((i.size / entWidth + (pow64 - 1)) % pow64 : Nat) : Int)
           else toInt32 inp) = ((r : Nat) : Int) ∧
          (if inp = -1 then ((i.size / entWidth : Nat) : Int) - 1 else inp) = ((r : Nat) : Int) := by
      rcases hin with h1 | ⟨h0, h31⟩
      · refine ⟨i.size / 12 - 1, by omega, ?_, ?_⟩
        · rw [if_pos h1]
          have e1 : i.size / entWidth + (pow64 - 1) = pow64 + (i.size / 12 - 1) := by
            simp only [entWidth, pow64]; omega
          have e2 : (i.size / entWidth + (pow64 - 1)) % pow64 = i.size / 12 - 1 := by
            rw [e1, Nat.add_mod_left, Nat.mod_eq_of_lt (by simp only [pow64]; omega)]
          rw [e2, toInt32_coe _ (by omega)]
        · rw [if_pos h1]
          simp only [entWidth]
          omega
      · have hne : inp ≠ -1 := by omega
        refine ⟨inp.toNat, by omega, ?_, ?_⟩
        · rw [if_neg hne, toInt32_eq_self inp h0 h31]
          omega
        · rw [if_neg hne]
          omega
    simp only [Index.Read, Index.ReadClaimed, if_neg hz]
    rw [hr_out, hr_claim, toUint64_coe _ (by omega)]
    have hp1 : r * entWidth % pow64 = r * entWidth := by
      apply Nat.mod_eq_of_lt
      simp only [entWidth, pow64]
      omega
    have hp2 : (r * entWidth + entWidth) % pow64 = r * entWidth + entWidth := by
      apply Nat.mod_eq_of_lt
      simp only [entWidth, pow64]
      omega
    rw [hp1, hp2]
    have hcond : ((i.size : Int) < ((r : Nat) : Int) * (entWidth : Int) + (entWidth : Int))
        ↔ (i.size < r * entWidth + entWidth) := by
      simp only [entWidth]
      omega
    have htn : (((r : Nat) : Int) * (entWidth : Int)).toNat = r * entWidth := by
      simp only [entWidth]
      omega
    rw [htn] at *
    simp only [hcond, htn]

/-- Witness for C7 (amended): reading the last entry of the concrete
    one-entry index agrees with the claimed behaviour. -/
theorem index_read_amended_witness :
    Index.Read idxC7 (-1) = Index.ReadClaimed idxC7 (-1) :=
  index_read_amended idxC7 (-1) (Or.inl rfl) (by decide) (by decide)

/-- C8: index.Write returns end-of-data exactly when one more entry would not
    fit the mapping; otherwise the new size is size + entWidth, the bytes
    before position size are unchanged, and the 12 bytes at position size are
    the big-endian (uint32 relOffset, uint64 storePos) entry. -/
theorem index_write_spec (i : Index) (off : Int) (pos : Nat) :
    ((Index.Write i off pos = .eofErr) ↔ i.mmap.length < i.size + entWidth) ∧
    (∀ i2, Index.Write i off pos = .okIdx i2 →
      i2.size = i.size + entWidth ∧
      i2.mmap.take i.size = i.mmap.take i.size ∧
      (i2.mmap.drop i.size).take entWidth = be32 (toUint32 off) ++ be64 pos ∧
      i2.mmap.length = i.mmap.length) := by
  by_cases h : i.mmap.length < i.size + entWidth
  · constructor
    · simp [Index.Write, h]
    · intro i2 heq
      rw [Index.Write, if_pos h] at heq
      cases heq
  · have hle : i.size ≤ i.mmap.length := by
      simp only [entWidth] at h
      omega
    have htlen : (i.mmap.take i.size).length = i.size := by
      simp [List.length_take, Nat.min_eq_left hle]
    constructor
    · rw [Index.Write, if_neg h]
      simp [h]
    · intro i2 heq
      rw [Index.Write, if_neg h] at heq
      cases heq
      refine ⟨rfl, ?_, ?_, ?_⟩
      · rw [List.append_assoc, List.append_assoc]
        exact List.take_left' htlen
      · rw [List.append_assoc, List.append_assoc, List.drop_left' htlen, ← List.append_assoc]
        have hblen : (be32 (toUint32 off) ++ be64 pos).length = entWidth := by
          simp [be32_length, be64_length, entWidth]
        exact List.take_left' hblen
      · simp only [List.length_append, htlen, be32_length, be64_length, List.length_drop]
        simp only [entWidth] at h ⊢
        omega

/-- Witness for C8: writing entry (3, 9) into an empty 12-byte index
    succeeds and the conclusions of the theorem hold there. -/
theorem index_write_spec_witness :
    ∃ i2, Index.Write ⟨0, List.replicate 12 0⟩ 3 9 = .okIdx i2 ∧
      i2.size = (Index.mk 0 (List.replicate 12 0)).size + entWidth ∧
      (i2.mmap.drop 0).take entWidth = be32 (toUint32 3) ++ be64 9 := by
  have h := (index_write_spec ⟨0, List.replicate 12 0⟩ 3 9).2
  exact ⟨_, rfl, (h _ rfl).1, (h _ rfl).2.2.1⟩

/-! ## DistributedLog.Append and the raft apply path -/

/-- Response the FSM hands back through the raft future: either an error value
    (proto unmarshal failure or Log.Append failure) or a ProduceResponse
    carrying the assigned offset. -/
inductive FsmResponse
  | errResp (msg : String)
  | okResp (offset : Nat)
deriving Repr, DecidableEq

/-- DistributedLog.apply: submit the command, wait for the future; a future
    error or an error-typed FSM response is propagated as an error, otherwise
    the response is returned. -/
def applyModel (futureErr : Option String) (res : FsmResponse) : Except String Nat :=
  match futureErr with
  | some e => Except.error e
  | none =>
    match res with
    | .errResp e => Except.error e
    | .okResp off => Except.ok off

/-- DistributedLog.Append as written in the source: on an apply error it
    executes `return 0, nil`, i.e. it returns offset 0 with a nil error;
    on success it returns the response offset with a nil error. -/
def DistributedLog.Append (futureErr : Option String) (res : FsmResponse) :
    Nat × Option String :=
  match applyModel futureErr res with
  | Except.error _ => (0, none)
  | Except.ok off => (off, none)

/-- C1: evidence of the code bug. Whenever the consensus apply path fails
    (raft future error, or error-typed FSM response), DistributedLog.Append
    returns (0, nil) — success with offset 0 — instead of propagating the
    error as the claim and the spec require; only the success case returns the
    assigned offset. -/
theorem distributedLog_append_drops_apply_error :
    (∀ (e : String) (res : FsmResponse), DistributedLog.Append (some e) res = (0, none)) ∧
    (∀ e : String, DistributedLog.Append none (.errResp e) = (0, none)) ∧
    (∀ off : Nat, DistributedLog.Append none (.okResp off) = (off, none)) :=
  ⟨fun _ _ => rfl, fun _ => rfl, fun _ => rfl⟩

/-! ## grpcServer.ConsumeStream -/

/-- Go error values that can come out of the Consume path.  The api package
    defines Error() on the pointer receiver of ErrorOffsetOutOfRange, so only
    the pointer form is an error value; the value form is kept as a separate
    constructor because the ConsumeStream type switch names exactly it. -/
inductive ConsumeError
  | oorPointer (off : Nat)
  | oorValue (off : Nat)
  | otherErr (msg : String)
deriving Repr, DecidableEq

/-- Record of the api package: value bytes plus offset. -/
structure ARecord where
  value : List Nat
  offset : Nat
deriving Repr, DecidableEq

/-- Modelled from the spec: the segmented commit log's Read behind the
    CommitLog interface (internal/log/log.go is not among the sources; the
    spec says it fails with OffsetOutOfRange for offsets outside the log, and
    the in-repo test testOutOfRangeErr asserts the error is the pointer
    *api.ErrorOffsetOutOfRange). grpcServer.Consume forwards this error
    unchanged. -/
def commitLogRead (records : List ARecord) (off : Nat) : Except ConsumeError ARecord :=
  match records[off]? with
  | some r => Except.ok r
  | none => Except.error (.oorPointer off)

/-- Effect of one iteration of the ConsumeStream loop. -/
inductive StreamStep
  | sent (r : ARecord) (next : Nat)
  | retry (off : Nat)
  | done (res : Option ConsumeError)
deriving Repr, DecidableEq

/-- One iteration of grpcServer.ConsumeStream: if the context is done, return
    nil; otherwise switch on the Consume error: nil sends the record and
    increments the offset, the value type api.ErrorOffsetOutOfRange continues
    with the same offset, and every other error value (the pointer type
    included) is returned, ending the stream. -/
def consumeStreamStep (read : Nat → Except ConsumeError ARecord) (cancelled : Bool)
    (off : Nat) : StreamStep :=
  if cancelled then .done none
  else
    match read off with
    | Except.ok r => .sent r (off + 1)
    | Except.error (.oorValue _) => .retry off
    | Except.error e => .done (some e)

/-- State of a bounded run of the ConsumeStream loop: either the handler
    returned (with the records it sent and its result), or it is still
    looping at some offset. -/
inductive RunResult
  | finished (sends : List ARecord) (res : Option ConsumeError)
  | running (sends : List ARecord) (off : Nat)
deriving Repr, DecidableEq

/-- Prepend a sent record to a run outcome. -/
def RunResult.consSend (r : ARecord) : RunResult → RunResult
  | .finished s res => .finished (r :: s) res
  | .running s off => .running (r :: s) off

/-- Run the ConsumeStream loop for a bounded number of iterations, starting
    at step index t and offset off. -/
def consumeStreamRun (read : Nat → Except ConsumeError ARecord) (cancelled : Nat → Bool) :
    Nat → Nat → Nat → RunResult
  | 0, _, off => .running [] off
  | fuel + 1, t, off =>
    match consumeStreamStep read (cancelled t) off with
    | .done res => .finished [] res
    | .sent r next => RunResult.consSend r (consumeStreamRun read cancelled fuel (t + 1) next)
    | .retry o => consumeStreamRun read cancelled fuel (t + 1) o

/-- The record "hello" at offset 0. -/
def helloRecord : ARecord := ⟨[104, 101, 108, 108, 111], 0⟩

/-- C2: evidence of the code bug. On a one-record log with the client context
    never cancelled, ConsumeStream at starting offset 1 terminates immediately
    with the *api.ErrorOffsetOutOfRange error (the type-switch case names the
    value type, which the pointer error can never match), instead of retrying
    the offset until cancellation; started at offset 0 it sends the record,
    increments, and then likewise terminates with the error. -/
theorem consumeStream_terminates_on_offset_out_of_range :
    consumeStreamRun (commitLogRead [helloRecord]) (fun _ => false) 10 0 1
      = .finished [] (some (.oorPointer 1)) ∧
    consumeStreamRun (commitLogRead [helloRecord]) (fun _ => false) 10 0 0
      = .finished [helloRecord] (some (.oorPointer 1)) :=
  ⟨rfl, rfl⟩

/-! ## DistributedLog.Join -/

/-- A raft configuration entry: server ID and address. -/
structure RServer where
  id : String
  addr : String
deriving Repr, DecidableEq

/-- raft.RemoveServer on the model configuration: drop the server with the
    given ID. -/
def removeServer (cfg : List RServer) (sid : String) : List RServer :=
  cfg.filter fun s => s.id != sid

/-- The loop of DistributedLog.Join: walk the configuration snapshot; on a
    server matching the id or the address, return success immediately if both
    match, otherwise remove that server (by its ID) from the live
    configuration; the Bool records an early return. -/
def joinLoop (sid saddr : String) : List RServer → List RServer → List RServer × Bool
  | [], cfg => (cfg, false)
  | s :: rest, cfg =>
    if s.id = sid ∨ s.addr = saddr then
      if s.id = sid ∧ s.addr = saddr then (cfg, true)
      else joinLoop sid saddr rest (removeServer cfg s.id)
    else joinLoop sid saddr rest cfg

/-- DistributedLog.Join: run the loop over the current configuration; unless
    it returned early, add (id, addr) as a voter. -/
def DistributedLog.Join (cfg : List RServer) (sid saddr : String) : List RServer :=
  let r := joinLoop sid saddr cfg cfg
  if r.2 then r.1 else r.1 ++ [⟨sid, saddr⟩]

/-! ## Replicator.Join / Close -/

/-- Replicator state: the keys of the per-peer task map and the closed flag
    (r.init only materializes nil maps, which the model represents as the
    empty list). -/
structure Replicator where
  servers : List String
  closed : Bool
deriving Repr, DecidableEq

/-- Result of Replicator.Join: the new state, the returned error, and whether
    a new replication goroutine was started. -/
structure ReplicatorJoinResult where
  state : Replicator
  err : Option String
  startedTask : Bool
deriving Repr, DecidableEq

/-- Replicator.Join: nil and no-op when closed or when the peer already has a
    task; otherwise register the peer and start a replication task. -/
def Replicator.Join (r : Replicator) (name : String) : ReplicatorJoinResult :=
  if r.closed then ⟨r, none, false⟩
  else if name ∈ r.servers then ⟨r, none, false⟩
  else ⟨⟨r.servers ++ [name], r.closed⟩, none, true⟩

/-- Replicator.Close: nil and no-op when already closed; otherwise set the
    closed flag (and close the close channel, not modelled further). -/
def Replicator.Close (r : Replicator) : Replicator × Option String :=
  if r.closed then (r, none)
  else ({ r with closed := true }, none)

/-! ## Theorems for claims C9 and C10 -/

/-- Keeping predicate for C9: servers matching neither the id nor the addr. -/
def keepsServer (sid saddr : String) (s : RServer) : Bool :=
  s.id != sid && s.addr != saddr

/-- Matching predicate of the Join loop, as a Bool. -/
def matchesJoin (sid saddr : String) (s : RServer) : Bool :=
  s.id == sid || s.addr == saddr

/-- Survivors of the removals performed while walking an iteration list. -/
def surviveAll (sid saddr : String) (l : List RServer) (t : RServer) : Bool :=
  l.all fun s => !(matchesJoin sid saddr s) || (t.id != s.id)

/-- When the target (id, addr) pair is in the walked list and every other
    entry matches neither field, the Join loop returns early with the
    configuration untouched. -/
theorem joinLoop_mem (sid saddr : String) :
    ∀ l cfg : List RServer,
      (⟨sid, saddr⟩ : RServer) ∈ l →
      (∀ s ∈ l, s = ⟨sid, saddr⟩ ∨ (s.id ≠ sid ∧ s.addr ≠ saddr)) →
      joinLoop sid saddr l cfg = (cfg, true) := by
  intro l
  induction l with
  | nil => intro cfg h; cases h
  | cons s rest ih =>
    intro cfg hmem hall
    rcases hall s (List.mem_cons_self s rest) with hs | hs
    · subst hs
      simp [joinLoop]
    · have hmem2 : (⟨sid, saddr⟩ : RServer) ∈ rest := by
        rcases List.mem_cons.mp hmem with he | hm
        · exact absurd (congrArg RServer.id he.symm) hs.1
        · exact hm
      rw [joinLoop, if_neg (by tauto)]
      exact ih cfg hmem2 fun t ht => hall t (List.mem_cons_of_mem s ht)

/-- When no walked entry matches both fields, the Join loop never returns
    early and just performs the removals. -/
theorem joinLoop_noBoth (sid saddr : String) :
    ∀ l cfg : List RServer,
      (∀ s ∈ l, ¬(s.id = sid ∧ s.addr = saddr)) →
      joinLoop sid saddr l cfg
        = (l.foldl (fun c s => if s.id = sid ∨ s.addr = saddr then removeServer c s.id else c)
             cfg, false) := by
  intro l
  induction l with
  | nil => intro cfg _; rfl
  | cons s rest ih =>
    intro cfg hall
    rw [List.foldl_cons]
    by_cases hm : s.id = sid ∨ s.addr = saddr
    · rw [joinLoop, if_pos hm, if_neg (hall s (List.mem_cons_self s rest)), if_pos hm]
      exact ih _ fun t ht => hall t (List.mem_cons_of_mem s ht)
    · rw [joinLoop, if_neg hm, if_neg hm]
      exact ih _ fun t ht => hall t (List.mem_cons_of_mem s ht)

/-- The removal fold is a filter by the survivors of the whole walk. -/
theorem joinFold_filter (sid saddr : String) :
    ∀ l cfg : List RServer,
      l.foldl (fun c s => if s.id = sid ∨ s.addr = saddr then removeServer c s.id else c) cfg
        = cfg.filter (surviveAll sid saddr l) := by
  intro l
  induction l with
  | nil =>
    intro cfg
    have h0 : surviveAll sid saddr [] = fun _ => true := by
      funext t
      simp [surviveAll]
    rw [h0, List.filter_true]
    rfl
  | cons s rest ih =>
    intro cfg
    rw [List.foldl_cons]
    by_cases hm : s.id = sid ∨ s.addr = saddr
    · rw [if_pos hm, ih, removeServer, List.filter_filter]
      congr 1
      funext t
      have hms : matchesJoin sid saddr s = true := by
        simp only [matchesJoin, Bool.or_eq_true, beq_iff_eq]
        exact hm
      simp [surviveAll, hms, Bool.and_comm]
    · rw [if_neg hm, ih]
      congr 1
      funext t
      have hms : matchesJoin sid saddr s = false := by
        simp only [matchesJoin, Bool.or_eq_false_iff, beq_eq_false_iff_ne]
        tauto
      simp [surviveAll, hms]

/-- C9: on a configuration with pairwise-distinct IDs and addresses (the raft
    invariant), Join (id, addr) returns with the configuration unchanged when
    a server carrying both this id and this address is present; otherwise it
    removes every server matching the id or the address and appends
    (id, addr) as a voter (when nothing matches, the filter is the identity
    and Join purely appends). -/
theorem distributedLog_join_spec (cfg : List RServer) (sid saddr : String)
    (hdist : cfg.Pairwise fun a b => a.id ≠ b.id ∧ a.addr ≠ b.addr) :
    (⟨sid, saddr⟩ ∈ cfg → DistributedLog.Join cfg sid saddr = cfg) ∧
    ((∀ s ∈ cfg, ¬(s.id = sid ∧ s.addr = saddr)) →
      DistributedLog.Join cfg sid saddr
        = cfg.filter (keepsServer sid saddr) ++ [⟨sid, saddr⟩]) := by
  have hsym : Symmetric fun a b : RServer => a.id ≠ b.id ∧ a.addr ≠ b.addr :=
    fun a b h => ⟨h.1.symm, h.2.symm⟩
  constructor
  · intro hmem
    have hall : ∀ s ∈ cfg, s = ⟨sid, saddr⟩ ∨ (s.id ≠ sid ∧ s.addr ≠ saddr) := by
      intro s hs
      by_cases he : s = ⟨sid, saddr⟩
      · exact Or.inl he
      · exact Or.inr (hdist.forall hsym hs hmem he)
    rw [DistributedLog.Join, joinLoop_mem sid saddr cfg cfg hmem hall]
    simp
  · intro hnone
    rw [DistributedLog.Join, joinLoop_noBoth sid saddr cfg cfg hnone,
      joinFold_filter sid saddr cfg cfg]
    show (if false = true then _ else _) = _
    rw [if_neg Bool.false_ne_true]
    congr 1
    apply List.filter_congr
    intro t ht
    by_cases hk : t.id = sid ∨ t.addr = saddr
    · have h1 : keepsServer sid saddr t = false := by
        simp only [keepsServer, Bool.and_eq_false_iff, bne_eq_false_iff_eq]
        tauto
      have h2 : surviveAll sid saddr cfg t = false := by
        apply List.all_eq_false.mpr
        refine ⟨t, ht, ?_⟩
        have hmt : matchesJoin sid saddr t = true := by
          simp only [matchesJoin, Bool.or_eq_true, beq_iff_eq]
          exact hk
        simp [hmt]
      rw [h1, h2]
    · have h1 : keepsServer sid saddr t = true := by
        simp only [keepsServer, Bool.and_eq_true, bne_iff_ne]
        tauto
      have h2 : surviveAll sid saddr cfg t = true := by
        apply List.all_eq_true.mpr
        intro s hsmem
        by_cases hms : matchesJoin sid saddr s = true
        · have hne : t ≠ s := by
            intro he
            subst he
            simp only [matchesJoin, Bool.or_eq_true, beq_iff_eq] at hms
            exact hk hms
          have hids := (hdist.forall hsym ht hsmem hne).1
          simp [hms, bne_iff_ne, hids]
        · simp [Bool.eq_false_iff.mpr hms]
      rw [h1, h2]

/-- Witness for C9: joining an already-present (id, addr) pair leaves the
    two-server configuration unchanged. -/
theorem distributedLog_join_spec_witness :
    DistributedLog.Join [⟨"a", "x"⟩, ⟨"b", "y"⟩] "b" "y" = [⟨"a", "x"⟩, ⟨"b", "y"⟩] :=
  (distributedLog_join_spec [⟨"a", "x"⟩, ⟨"b", "y"⟩] "b" "y"
    (by simp [List.pairwise_cons])).1 (by simp)

/-- C10: Replicator.Join is idempotent and close-safe: joining a peer that
    already has a replication task returns nil and changes nothing (no second
    stream is started); joining after Close returns nil and changes nothing;
    and a second Close is a no-op returning nil. -/
theorem replicator_join_idempotent_close_safe (r : Replicator) (name : String) :
    (name ∈ r.servers → Replicator.Join r name = ⟨r, none, false⟩) ∧
    (Replicator.Join (Replicator.Close r).1 name = ⟨(Replicator.Close r).1, none, false⟩) ∧
    (Replicator.Close (Replicator.Close r).1 = ((Replicator.Close r).1, none)) := by
  have hclosed : (Replicator.Close r).1.closed = true := by
    by_cases h : r.closed <;> simp [Replicator.Close, h]
  refine ⟨?_, ?_, ?_⟩
  · intro hmem
    by_cases h : r.closed <;> simp [Replicator.Join, h, hmem]
  · by_cases h : r.closed <;> simp [Replicator.Join, Replicator.Close, h]
  · by_cases h : r.closed <;> simp [Replicator.Close, h]

/-- Witness for C10: joining a peer that is already replicated is a no-op. -/
theorem replicator_join_idempotent_close_safe_witness :
    Replicator.Join ⟨["a"], false⟩ "a" = ⟨⟨["a"], false⟩, none, false⟩ :=
  (replicator_join_idempotent_close_safe ⟨["a"], false⟩ "a").1 (by simp)

end Prolog
